import Mathlib

/-!
Verification of the Hungarian matcher of DAB-DETR (`src/models/matcher.py`).

The matcher is shallowly embedded over `ℚ`.  Transcendental primitives used by
the source through external numeric libraries (`sigmoid`, `log` from torch and
`cos`, `sin` used by the oriented-IoU geometry) are passed as an explicit
parameter record `NumPrims`, so every definition stays computable; no theorem
below depends on the values those primitives take.

Repository code that `matcher.py` imports but that is not part of the sources
(`util.losses.matched_l1_loss`, `util.oriented_iou_loss.cal_giou`) and the
external solver `scipy.optimize.linear_sum_assignment` are modelled from the
specification and the library contract; each such definition carries a doc
comment saying so.
-/

/-- Record of the numeric primitives the source obtains from torch / libm:
`sigmoid` and `log` (classification cost) and `cos`, `sin` (rotated-box
geometry).  All matcher definitions are parameterised by it. -/
structure NumPrims where
  sigmoid : ℚ → ℚ
  log : ℚ → ℚ
  cos : ℚ → ℚ
  sin : ℚ → ℚ

/-- A planar point with rational coordinates. -/
abbrev Pt := ℚ × ℚ

/-- Shoelace sum of a polygon (twice its signed area). -/
def shoelace (poly : List Pt) : ℚ :=
  ((List.range poly.length).map (fun i =>
    let a := poly.getD i (0, 0)
    let b := poly.getD ((i + 1) % poly.length) (0, 0)
    a.1 * b.2 - b.1 * a.2)).sum

/-- Absolute polygon area via the shoelace formula. -/
def polyArea (poly : List Pt) : ℚ := |shoelace poly| / 2

/-- Signed side of point `x` relative to the directed line through `c`, `d`. -/
def sideOf (c d x : Pt) : ℚ :=
  (d.1 - c.1) * (x.2 - c.2) - (d.2 - c.2) * (x.1 - c.1)

/-- Intersection of the line through `a`, `b` with the line through `c`, `d`
(returns `a` for parallel lines). -/
def segLineInter (a b c d : Pt) : Pt :=
  let den := (b.1 - a.1) * (d.2 - c.2) - (b.2 - a.2) * (d.1 - c.1)
  if den = 0 then a
  else
    let t := ((c.1 - a.1) * (d.2 - c.2) - (c.2 - a.2) * (d.1 - c.1)) / den
    (a.1 + t * (b.1 - a.1), a.2 + t * (b.2 - a.2))

/-- One Sutherland–Hodgman clipping step: keep the part of `poly` on the left
of the directed line `c → d`. -/
def clipHalf (c d : Pt) (poly : List Pt) : List Pt :=
  let n := poly.length
  (List.range n).flatMap (fun i =>
    let cur := poly.getD i (0, 0)
    let prev := poly.getD ((i + n - 1) % n) (0, 0)
    if 0 ≤ sideOf c d cur then
      if 0 ≤ sideOf c d prev then [cur] else [segLineInter prev cur c d, cur]
    else
      if 0 ≤ sideOf c d prev then [segLineInter prev cur c d] else [])

/-- Normalise a polygon to counter-clockwise orientation. -/
def ccw (poly : List Pt) : List Pt :=
  if 0 ≤ shoelace poly then poly else poly.reverse

/-- Clip polygon `subject` against convex polygon `clip` (Sutherland–Hodgman). -/
def clipPoly (subject clip : List Pt) : List Pt :=
  let c := ccw clip
  let n := c.length
  (List.range n).foldl
    (fun acc i => clipHalf (c.getD i (0, 0)) (c.getD ((i + 1) % n) (0, 0)) acc)
    (ccw subject)

/-- Intersection area of two convex polygons via clipping. -/
def interArea (p q : List Pt) : ℚ := polyArea (clipPoly p q)

/-- Corner points of a 5-parameter oriented box `(cx, cy, w, h, θ)`, rotated
with the `cos`/`sin` primitives. -/
def oboxCorners (P : NumPrims) (ob : List ℚ) : List Pt :=
  let cx := ob.getD 0 0
  let cy := ob.getD 1 0
  let w := ob.getD 2 0
  let h := ob.getD 3 0
  let th := ob.getD 4 0
  let co := P.cos th
  let si := P.sin th
  [(-w / 2, -h / 2), (w / 2, -h / 2), (w / 2, h / 2), (-w / 2, h / 2)].map
    (fun dxy => (cx + dxy.1 * co - dxy.2 * si, cy + dxy.1 * si + dxy.2 * co))

/-- Area of the smallest axis-aligned box enclosing the given points. -/
def encloseArea (pts : List Pt) : ℚ :=
  match pts with
  | [] => 0
  | p :: rest =>
    let xs := (p :: rest).map Prod.fst
    let ys := (p :: rest).map Prod.snd
    (xs.foldl max p.1 - xs.foldl min p.1) * (ys.foldl max p.2 - ys.foldl min p.2)

/-- Modelled from the spec: `util.oriented_iou_loss.cal_giou` is not in the
sources.  Per §4.1 of the spec it computes, for two 5-parameter oriented
boxes, the intersection area by polygon clipping of the two rotated
rectangles, union = a1 + a2 − intersection, IoU = intersection/union (0 when
the union is 0), a generalized term from the smallest enclosing region, and
returns the cost `1 − GIoU`; degenerate (zero-area) boxes yield the maximal
cost 1. -/
def cal_giou (P : NumPrims) (ob1 ob2 : List ℚ) : ℚ :=
  let c1 := oboxCorners P ob1
  let c2 := oboxCorners P ob2
  let a1 := polyArea c1
  let a2 := polyArea c2
  if a1 = 0 ∨ a2 = 0 then 1
  else
    let inter := interArea c1 c2
    let uni := a1 + a2 - inter
    let iou := if uni = 0 then 0 else inter / uni
    let ac := encloseArea (c1 ++ c2)
    let giou := if ac = 0 then iou else iou - (ac - uni) / ac
    1 - giou

/-- Modelled from the spec: `util.losses.matched_l1_loss` is not in the
sources.  Per §4.1 of the spec the polygon L1 cost is the mean of the
absolute coordinate differences of two 8-coordinate polygons (the source
keeps component `[0]` of the returned tuple, the cost itself). -/
def matched_l1_loss (a b : List ℚ) : ℚ :=
  ((List.zipWith (fun x y => |x - y|) a b).sum) / 8

/-- All length-`k` lists of pairwise-distinct naturals below `n` (candidate
assignments of `k` rows to `n` columns). -/
def injections : ℕ → ℕ → List (List ℕ)
  | 0, _ => [[]]
  | k + 1, n =>
      (List.range n).flatMap (fun c =>
        (injections k n).filterMap (fun rest =>
          if c ∈ rest then none else some (c :: rest)))

/-- First element of the list minimising `f` (deterministic tie-break: the
earliest minimiser wins). -/
def pickMin (f : List ℕ → ℚ) : List (List ℕ) → Option (List ℕ)
  | [] => none
  | x :: xs =>
    match pickMin f xs with
    | none => some x
    | some y => if f y < f x then some y else some x

/-- Index of the first occurrence of `r` in a list (0 when absent). -/
def idxIn (r : ℕ) : List ℕ → ℕ
  | [] => 0
  | c :: cs => if c = r then 0 else idxIn r cs + 1

/-- Total cost of assigning row `i` to column `σ i`, for all rows. -/
def rowAssignCost (M : List (List ℚ)) (σ : List ℕ) : ℚ :=
  ((List.range σ.length).map (fun i => (M.getD i []).getD (σ.getD i 0) 0)).sum

/-- Total cost of assigning column `j` to row `τ j`, for all columns. -/
def colAssignCost (M : List (List ℚ)) (τ : List ℕ) : ℚ :=
  ((List.range τ.length).map (fun j => (M.getD (τ.getD j 0) []).getD j 0)).sum

/-- Modelled from the spec: `scipy.optimize.linear_sum_assignment` is an
external exact minimum-cost bipartite matching primitive.  Its documented
contract (spec §4.4): on an R × C matrix it returns row indices and matching
column indices of an optimal assignment of size min(R, C), deterministically,
with the row indices sorted in increasing order.  Modelled by exhaustive
minimisation with a fixed tie-break. -/
def linear_sum_assignment (M : List (List ℚ)) : List ℕ × List ℕ :=
  let R := M.length
  let Cn := (M.headD []).length
  if R ≤ Cn then
    match pickMin (rowAssignCost M) (injections R Cn) with
    | some σ => (List.range R, σ)
    | none => ([], [])
  else
    match pickMin (colAssignCost M) (injections Cn R) with
    | some τ =>
      let rows := (List.range R).filter (fun r => decide (r ∈ τ))
      (rows, rows.map (fun r => idxIn r τ))
    | none => ([], [])

/-- The matcher: three immutable cost weights fixed at construction
(`matcher.py` lines 24–35). -/
structure HungarianMatcher where
  cost_class : ℚ
  cost_bbox : ℚ
  cost_giou : ℚ

/-- Construction (`HungarianMatcher.__init__`): stores the three weights and
asserts `cost_class != 0 or cost_bbox != 0 or cost_giou != 0`; the failed
assertion (an exception) is modelled as `none`. -/
def HungarianMatcher.init (cost_class cost_bbox cost_giou : ℚ) :
    Option HungarianMatcher :=
  if cost_class ≠ 0 ∨ cost_bbox ≠ 0 ∨ cost_giou ≠ 0 then
    some ⟨cost_class, cost_bbox, cost_giou⟩
  else none

/-- The `outputs` dict of `forward`: per image, `Q` logit rows (`C` classes
each), `Q` 5-parameter oriented boxes, `Q` 8-coordinate polygons. -/
structure Outputs where
  pred_logits : List (List (List ℚ))
  pred_boxes : List (List (List ℚ))
  pred_polys : List (List (List ℚ))

/-- One element of the `targets` list of `forward`: class labels,
8-coordinate polygons, 4-value axis boxes and 1-value angles. -/
structure Target where
  labels : List ℕ
  polys : List (List ℚ)
  boxes : List (List ℚ)
  theta : List (List ℚ)

/-- The empty target dict (used only as a `getD` default). -/
def emptyTarget : Target := ⟨[], [], [], []⟩

/-- Focal classification-cost constant `alpha = 0.25` (`matcher.py` line 72). -/
def hmAlpha : ℚ := 1 / 4

/-- Stabilisation constant `1e-8` added before taking logs
(`matcher.py` lines 74–75). -/
def hmEps : ℚ := 1 / 100000000

/-- Entry of `pos_cost_class` (`matcher.py` line 75):
`alpha * ((1 - p) ** gamma) * (-(p + 1e-8).log())` with `gamma = 2.0`. -/
def pos_cost_class (P : NumPrims) (p : ℚ) : ℚ :=
  hmAlpha * (1 - p) ^ 2 * (-(P.log (p + hmEps)))

/-- Entry of `neg_cost_class` (`matcher.py` line 74):
`(1 - alpha) * (p ** gamma) * (-(1 - p + 1e-8).log())` with `gamma = 2.0`. -/
def neg_cost_class (P : NumPrims) (p : ℚ) : ℚ :=
  (1 - hmAlpha) * p ^ 2 * (-(P.log (1 - p + hmEps)))

/-- The classification cost matrix
`pos_cost_class[:, tgt_ids] - neg_cost_class[:, tgt_ids]`
(`matcher.py` lines 74–76): full per-class rows are built first, then indexed
by the concatenated target labels. -/
def costClassMat (P : NumPrims) (out_prob : List (List ℚ)) (tgt_ids : List ℕ) :
    List (List ℚ) :=
  out_prob.map (fun probs =>
    let posRow := probs.map (pos_cost_class P)
    let negRow := probs.map (neg_cost_class P)
    tgt_ids.map (fun c => posRow.getD c 0 - negRow.getD c 0))

/-- The L1 cost matrix `matched_l1_loss(out_polys_tmp, tgt_polys_tmp)[0]`
(`matcher.py` lines 81–83): the `repeat`/broadcast construction makes entry
`(r, t)` the L1 cost of prediction polygon `r` against target polygon `t`. -/
def costBboxMat (out_polys tgt_polys : List (List ℚ)) : List (List ℚ) :=
  out_polys.map (fun p => tgt_polys.map (fun g => matched_l1_loss p g))

/-- The oriented-IoU cost matrix `cal_giou(out_oboxes_tmp, tgt_oboxes_tmp)`
(`matcher.py` lines 87–89): entry `(r, t)` is the giou cost of prediction
oriented box `r` against target oriented box `t`. -/
def costGiouMat (P : NumPrims) (out_oboxes tgt_oboxes : List (List ℚ)) : List (List ℚ) :=
  out_oboxes.map (fun p => tgt_oboxes.map (fun g => cal_giou P p g))

/-- Scalar multiple of a matrix (a weight applied to a cost matrix). -/
def smulMat (w : ℚ) (M : List (List ℚ)) : List (List ℚ) :=
  M.map (fun row => row.map (fun x => w * x))

/-- Elementwise sum of two matrices. -/
def addMat (A B : List (List ℚ)) : List (List ℚ) :=
  List.zipWith (List.zipWith (· + ·)) A B

/-- The flattened (B·Q) × (ΣNᵢ) cost matrix `C` of `forward`
(`matcher.py` lines 60–93): probabilities are sigmoids of the flattened
logits, targets are concatenated across the batch, the three cost matrices
are built by broadcasting, and
`C = cost_bbox * bbox + cost_class * class + cost_giou * giou`. -/
def costMatrix (P : NumPrims) (m : HungarianMatcher) (out : Outputs)
    (tgts : List Target) : List (List ℚ) :=
  let out_prob := out.pred_logits.flatten.map (fun row => row.map P.sigmoid)
  let out_oboxes := out.pred_boxes.flatten
  let out_polys := out.pred_polys.flatten
  let tgt_ids := (tgts.map Target.labels).flatten
  let tgt_polys := (tgts.map Target.polys).flatten
  let tgt_boxes := (tgts.map Target.boxes).flatten
  let tgt_theta := (tgts.map Target.theta).flatten
  let tgt_oboxes := List.zipWith (fun b t => b ++ t) tgt_boxes tgt_theta
  let cost_class := costClassMat P out_prob tgt_ids
  let cost_bbox := costBboxMat out_polys tgt_polys
  let cost_giou := costGiouMat P out_oboxes tgt_oboxes
  addMat (addMat (smulMat m.cost_bbox cost_bbox) (smulMat m.cost_class cost_class))
    (smulMat m.cost_giou cost_giou)

/-- The `[Q rows of image i] × [columns o .. o+n)` block of the flattened cost
matrix — the submatrix `c[i]` obtained from `C.view(bs, Q, -1).split(sizes, -1)`
(`matcher.py` lines 94–97). -/
def sliceBlock (M : List (List ℚ)) (Q i o n : ℕ) : List (List ℚ) :=
  ((M.drop (i * Q)).take Q).map (fun row => (row.drop o).take n)

/-- The per-image target counts `sizes = [len(v["boxes"]) for v in targets]`
(`matcher.py` line 96). -/
def tgtSizes (tgts : List Target) : List ℕ :=
  tgts.map (fun v => v.boxes.length)

/-- Column offset of image `i` in the concatenated target axis. -/
def colOffset (sizes : List ℕ) (i : ℕ) : ℕ := (sizes.take i).sum

/-- The matcher entry point (`HungarianMatcher.forward`, lines 37–99): build
the batched cost matrix, slice it per image, and run the assignment solver on
each image block.  Image `i` yields the pair of index sequences
`(prediction_indices, target_indices)`. -/
def HungarianMatcher.forward (P : NumPrims) (m : HungarianMatcher)
    (out : Outputs) (tgts : List Target) : List (List ℕ × List ℕ) :=
  let bs := out.pred_logits.length
  let num_queries := (out.pred_logits.headD []).length
  let C := costMatrix P m out tgts
  let sizes := tgtSizes tgts
  (List.range bs).map (fun i =>
    linear_sum_assignment (sliceBlock C num_queries i (colOffset sizes i) (sizes.getD i 0)))

/-- Per-image direct cost matrix, following the spec (§9): compute the
`Q × Nᵢ` cost matrix of image `i` directly from its own predictions and targets, with the
same three cost terms and weights. -/
def directCostMatrix (P : NumPrims) (m : HungarianMatcher)
    (logits oboxes polys : List (List ℚ)) (t : Target) : List (List ℚ) :=
  let out_prob := logits.map (fun row => row.map P.sigmoid)
  let tgt_oboxes := List.zipWith (fun b th => b ++ th) t.boxes t.theta
  let cost_class := costClassMat P out_prob t.labels
  let cost_bbox := costBboxMat polys t.polys
  let cost_giou := costGiouMat P oboxes tgt_oboxes
  addMat (addMat (smulMat m.cost_bbox cost_bbox) (smulMat m.cost_class cost_class))
    (smulMat m.cost_giou cost_giou)

/-- Shape discipline of one target dict: the four per-target fields agree in
count, labels index valid classes, polygons have 8 coordinates, axis boxes 4
values and angles 1 value. -/
abbrev ValidTarget (Cl : ℕ) (t : Target) : Prop :=
  t.labels.length = t.boxes.length ∧
  t.polys.length = t.boxes.length ∧
  t.theta.length = t.boxes.length ∧
  (∀ c ∈ t.labels, c < Cl) ∧
  (∀ p ∈ t.polys, p.length = 8) ∧
  (∀ b ∈ t.boxes, b.length = 4) ∧
  (∀ th ∈ t.theta, th.length = 1)

/-- Shape discipline of a batch: `B` images of `Q` predictions each, logits of
`Cl` classes, 5-parameter oriented boxes, 8-coordinate polygons, and valid
target dicts. -/
abbrev ValidBatch (Q Cl : ℕ) (out : Outputs) (tgts : List Target) : Prop :=
  out.pred_logits.length = tgts.length ∧
  out.pred_boxes.length = tgts.length ∧
  out.pred_polys.length = tgts.length ∧
  (∀ l ∈ out.pred_logits, l.length = Q) ∧
  (∀ l ∈ out.pred_boxes, l.length = Q) ∧
  (∀ l ∈ out.pred_polys, l.length = Q) ∧
  (∀ l ∈ out.pred_logits, ∀ r ∈ l, r.length = Cl) ∧
  (∀ l ∈ out.pred_boxes, ∀ r ∈ l, r.length = 5) ∧
  (∀ l ∈ out.pred_polys, ∀ r ∈ l, r.length = 8) ∧
  (∀ t ∈ tgts, ValidTarget Cl t)

/-- Concrete primitives for witnesses (the theorems hold for any `NumPrims`). -/
def P0 : NumPrims := ⟨fun _ => 1 / 2, fun _ => 0, fun _ => 1, fun _ => 0⟩

/-- Witness batch: one image, one prediction, one class. -/
def out1 : Outputs := ⟨[[[0]]], [[[0, 0, 0, 0, 0]]], [[[0, 0, 0, 0, 0, 0, 0, 0]]]⟩

/-- Witness target for `out1`: one ground-truth object. -/
def tgt1 : Target := ⟨[0], [[0, 0, 0, 0, 0, 0, 0, 0]], [[0, 0, 0, 0]], [[0]]⟩

/-- Witness batch: two images with two predictions each. -/
def out2 : Outputs :=
  ⟨[[[0], [0]], [[0], [0]]],
   [[[0, 0, 1, 1, 0], [0, 0, 2, 2, 0]], [[0, 0, 1, 1, 0], [0, 0, 1, 1, 0]]],
   [[[0, 0, 0, 0, 0, 0, 0, 0], [0, 0, 1, 1, 1, 1, 0, 0]],
    [[0, 0, 0, 0, 0, 0, 0, 0], [0, 0, 0, 0, 0, 0, 0, 0]]]⟩

/-- Witness target for image 0 of `out2`: one ground-truth object. -/
def tgt2a : Target := ⟨[0], [[0, 0, 1, 1, 1, 1, 0, 0]], [[0, 0, 2, 2]], [[0]]⟩

/-- Witness target for image 1 of `out2`: zero ground-truth objects. -/
def tgt2b : Target := ⟨[], [], [], []⟩

theorem mem_injections {k n : ℕ} {l : List ℕ} :
    l ∈ injections k n ↔ l.length = k ∧ l.Nodup ∧ ∀ x ∈ l, x < n := by
  induction k generalizing l with
  | zero =>
    constructor
    · intro h
      simp only [injections, List.mem_singleton] at h
      subst h
      simp
    · rintro ⟨hlen, -, -⟩
      rw [List.length_eq_zero] at hlen
      subst hlen
      simp [injections]
  | succ k ih =>
    simp only [injections, List.mem_flatMap, List.mem_filterMap, List.mem_range]
    constructor
    · rintro ⟨c, hc, rest, hrest, hif⟩
      by_cases hmem : c ∈ rest
      · simp [hmem] at hif
      · simp only [hmem, if_false, Option.some.injEq] at hif
        subst hif
        obtain ⟨hlen, hnd, hlt⟩ := ih.mp hrest
        refine ⟨by simp [hlen], List.nodup_cons.mpr ⟨hmem, hnd⟩, ?_⟩
        intro x hx
        rcases List.mem_cons.mp hx with rfl | hx
        · exact hc
        · exact hlt x hx
    · rintro ⟨hlen, hnd, hlt⟩
      cases l with
      | nil => simp at hlen
      | cons c rest =>
        obtain ⟨hcm, hndr⟩ := List.nodup_cons.mp hnd
        refine ⟨c, hlt c (List.mem_cons_self c rest), rest, ?_, by simp [hcm]⟩
        exact ih.mpr ⟨by simpa using hlen, hndr, fun x hx => hlt x (List.mem_cons_of_mem c hx)⟩

theorem range_mem_injections {k n : ℕ} (h : k ≤ n) : List.range k ∈ injections k n :=
  mem_injections.mpr
    ⟨List.length_range k, List.nodup_range k,
     fun _ hx => lt_of_lt_of_le (List.mem_range.mp hx) h⟩

theorem pickMin_eq_none {f : List ℕ → ℚ} {l : List (List ℕ)} :
    pickMin f l = none ↔ l = [] := by
  cases l with
  | nil => simp [pickMin]
  | cons x xs =>
    simp only [pickMin]
    cases h : pickMin f xs with
    | none => simp
    | some y => simp only [h]; split <;> simp

theorem pickMin_mem {f : List ℕ → ℚ} {l : List (List ℕ)} {x : List ℕ}
    (h : pickMin f l = some x) : x ∈ l := by
  induction l generalizing x with
  | nil => simp [pickMin] at h
  | cons a as ih =>
    rw [pickMin] at h
    cases hb : pickMin f as with
    | none =>
      rw [hb] at h
      cases h
      exact List.mem_cons_self a as
    | some y =>
      rw [hb] at h
      dsimp only at h
      by_cases hfy : f y < f a
      · rw [if_pos hfy] at h
        cases h
        exact List.mem_cons_of_mem a (ih hb)
      · rw [if_neg hfy] at h
        cases h
        exact List.mem_cons_self a as

theorem idxIn_lt_length {r : ℕ} {τ : List ℕ} (h : r ∈ τ) : idxIn r τ < τ.length := by
  induction τ with
  | nil => simp at h
  | cons c cs ih =>
    by_cases hc : c = r
    · simp [idxIn, hc]
    · rcases List.mem_cons.mp h with rfl | hm
      · exact absurd rfl hc
      · simpa [idxIn, hc, Nat.succ_lt_succ_iff] using ih hm

theorem getD_idxIn {r : ℕ} {τ : List ℕ} (h : r ∈ τ) : τ.getD (idxIn r τ) 0 = r := by
  induction τ with
  | nil => simp at h
  | cons c cs ih =>
    by_cases hc : c = r
    · simp [idxIn, hc]
    · rcases List.mem_cons.mp h with rfl | hm
      · exact absurd rfl hc
      · simpa [idxIn, hc] using ih hm

theorem lsa_props {M : List (List ℚ)} {n : ℕ} (hrows : ∀ row ∈ M, row.length = n) :
    (linear_sum_assignment M).1.length = min M.length n ∧
    (linear_sum_assignment M).2.length = min M.length n ∧
    (linear_sum_assignment M).1.Nodup ∧
    (linear_sum_assignment M).2.Nodup ∧
    (∀ r ∈ (linear_sum_assignment M).1, r < M.length) ∧
    (∀ c ∈ (linear_sum_assignment M).2, c < n) ∧
    List.Pairwise (· < ·) (linear_sum_assignment M).1 := by
  cases M with
  | nil => simp [linear_sum_assignment, injections, pickMin]
  | cons hd tl =>
    have hn : hd.length = n := hrows hd (List.mem_cons_self hd tl)
    set M := hd :: tl with hM
    have hCn : (M.headD []).length = n := by rw [hM]; simpa using hn
    rw [linear_sum_assignment]
    rw [hCn]
    by_cases hle : M.length ≤ n
    · have hne : injections M.length n ≠ [] :=
        List.ne_nil_of_mem (range_mem_injections hle)
      cases hpk : pickMin (rowAssignCost M) (injections M.length n) with
      | none => exact absurd (pickMin_eq_none.mp hpk) hne
      | some σ =>
        obtain ⟨hσlen, hσnd, hσlt⟩ := mem_injections.mp (pickMin_mem hpk)
        simp only [hle, if_true, hpk]
        refine ⟨by simpa using (Nat.min_eq_left hle).symm,
                by simpa [hσlen] using (Nat.min_eq_left hle).symm,
                List.nodup_range M.length, hσnd,
                fun r hr => List.mem_range.mp hr, hσlt,
                List.pairwise_lt_range M.length⟩
    · have hlt : n < M.length := Nat.lt_of_not_le hle
      have hne : injections n M.length ≠ [] :=
        List.ne_nil_of_mem (range_mem_injections (Nat.le_of_lt hlt))
      cases hpk : pickMin (colAssignCost M) (injections n M.length) with
      | none => exact absurd (pickMin_eq_none.mp hpk) hne
      | some τ =>
        obtain ⟨hτlen, hτnd, hτlt⟩ := mem_injections.mp (pickMin_mem hpk)
        simp only [hle, if_false, hpk]
        have hmemrows : ∀ a : ℕ,
            a ∈ (List.range M.length).filter (fun r => decide (r ∈ τ)) ↔ a ∈ τ := by
          intro a
          rw [List.mem_filter]
          simp only [decide_eq_true_eq, List.mem_range]
          exact ⟨fun h => h.2, fun h => ⟨hτlt a h, h⟩⟩
        have hrownd : ((List.range M.length).filter (fun r => decide (r ∈ τ))).Nodup :=
          List.Nodup.filter _ (List.nodup_range M.length)
        have hperm : ((List.range M.length).filter (fun r => decide (r ∈ τ))).Perm τ :=
          (List.perm_ext_iff_of_nodup hrownd hτnd).mpr hmemrows
        have hrowlen : ((List.range M.length).filter (fun r => decide (r ∈ τ))).length = n := by
          rw [hperm.length_eq, hτlen]
        have hminr : min M.length n = n := Nat.min_eq_right (Nat.le_of_lt hlt)
        refine ⟨by simpa [hrowlen] using hminr.symm,
                by simpa [List.length_map, hrowlen] using hminr.symm,
                hrownd, ?_, ?_, ?_,
                List.Pairwise.sublist (List.filter_sublist _) (List.pairwise_lt_range M.length)⟩
        · refine List.Nodup.map_on ?_ hrownd
          intro x hx y hy hxy
          have hxτ : x ∈ τ := (hmemrows x).mp hx
          have hyτ : y ∈ τ := (hmemrows y).mp hy
          calc x = τ.getD (idxIn x τ) 0 := (getD_idxIn hxτ).symm
            _ = τ.getD (idxIn y τ) 0 := by rw [hxy]
            _ = y := getD_idxIn hyτ
        · intro r hr
          have := ((List.mem_filter).mp hr).1
          exact List.mem_range.mp this
        · intro c hc
          obtain ⟨r, hr, rfl⟩ := List.mem_map.mp hc
          have hrτ : r ∈ τ := (hmemrows r).mp hr
          have := idxIn_lt_length hrτ
          omega

theorem flatten_drop_take {α : Type} (ls : List (List α)) (i : ℕ) :
    (ls.flatten.drop (((ls.map List.length).take i).sum)).take (ls.getD i []).length
      = ls.getD i [] := by
  induction ls generalizing i with
  | nil => simp
  | cons x xs ih =>
    cases i with
    | zero =>
      simp only [List.take_zero, List.sum_nil, List.drop_zero, List.getD_cons_zero,
        List.flatten_cons]
      exact List.take_left x xs.flatten
    | succ j =>
      simp only [List.map_cons, List.take_succ_cons, List.sum_cons, List.getD_cons_succ,
        List.flatten_cons]
      rw [← List.drop_drop, List.drop_left]
      exact ih j

theorem flatten_chunk {α : Type} {ls : List (List α)} {sz : List ℕ}
    (hsz : ls.map List.length = sz) (i : ℕ) :
    (ls.flatten.drop ((sz.take i).sum)).take (sz.getD i 0) = ls.getD i [] := by
  subst hsz
  have hlen : (ls.map List.length).getD i 0 = (ls.getD i []).length := by
    by_cases hi : i < ls.length
    · rw [List.getD_eq_getElem _ _ (by simpa using hi), List.getD_eq_getElem _ _ hi,
        List.getElem_map]
    · have hge : ls.length ≤ i := Nat.le_of_not_lt hi
      rw [List.getD_eq_default _ _ (by simpa using hge), List.getD_eq_default _ _ hge]
      simp
  rw [hlen]
  exact flatten_drop_take ls i

theorem sum_take_map_length_uniform {α : Type} {ls : List (List α)} {Q : ℕ}
    (h : ∀ x ∈ ls, x.length = Q) {i : ℕ} (hi : i ≤ ls.length) :
    ((ls.map List.length).take i).sum = i * Q := by
  induction ls generalizing i with
  | nil =>
    have : i = 0 := by simpa using hi
    simp [this]
  | cons x xs ih =>
    cases i with
    | zero => simp
    | succ j =>
      simp only [List.map_cons, List.take_succ_cons, List.sum_cons]
      rw [h x (List.mem_cons_self x xs),
        ih (fun y hy => h y (List.mem_cons_of_mem x hy)) (by simpa using hi)]
      ring

theorem flatten_chunk_uniform {α : Type} {ls : List (List α)} {Q : ℕ}
    (h : ∀ x ∈ ls, x.length = Q) {i : ℕ} (hi : i < ls.length) :
    (ls.flatten.drop (i * Q)).take Q = ls.getD i [] := by
  have h1 : ((ls.map List.length).take i).sum = i * Q :=
    sum_take_map_length_uniform h (Nat.le_of_lt hi)
  have h2 : (ls.getD i []).length = Q := by
    rw [List.getD_eq_getElem _ _ hi]
    exact h _ (List.getElem_mem hi)
  rw [← h1, ← h2]
  exact flatten_drop_take ls i

theorem map_length_eq_sizes {α : Type} {tgts : List Target} {f : Target → List α}
    (hf : ∀ t ∈ tgts, (f t).length = t.boxes.length) :
    (tgts.map f).map List.length = tgtSizes tgts := by
  rw [List.map_map]
  exact List.map_congr_left (fun t ht => hf t ht)

theorem tgt_chunk {α : Type} {tgts : List Target} {f : Target → List α}
    (hf : ∀ t ∈ tgts, (f t).length = t.boxes.length) {i : ℕ} (hi : i < tgts.length) :
    ((tgts.map f).flatten.drop (colOffset (tgtSizes tgts) i)).take ((tgtSizes tgts).getD i 0)
      = f (tgts.getD i emptyTarget) := by
  have h1 := flatten_chunk (map_length_eq_sizes hf) i
  have h2 : (tgts.map f).getD i [] = f (tgts.getD i emptyTarget) := by
    rw [List.getD_eq_getElem _ _ (by simpa using hi), List.getD_eq_getElem _ _ hi,
      List.getElem_map]
  rw [h2] at h1
  simpa [colOffset] using h1

theorem flatten_length_uniform {α : Type} {ls : List (List α)} {Q : ℕ}
    (h : ∀ x ∈ ls, x.length = Q) : ls.flatten.length = ls.length * Q := by
  induction ls with
  | nil => simp
  | cons x xs ih =>
    simp only [List.flatten_cons, List.length_append, List.length_cons]
    rw [h x (List.mem_cons_self x xs), ih (fun y hy => h y (List.mem_cons_of_mem x hy))]
    ring

theorem tgt_flat_length {α : Type} {tgts : List Target} {f : Target → List α}
    (hf : ∀ t ∈ tgts, (f t).length = t.boxes.length) :
    (tgts.map f).flatten.length = (tgtSizes tgts).sum := by
  rw [List.length_flatten, map_length_eq_sizes hf]

theorem offset_add_size_le {sizes : List ℕ} {i : ℕ} (hi : i < sizes.length) :
    colOffset sizes i + sizes.getD i 0 ≤ sizes.sum := by
  have h1 : (sizes.take (i + 1)).sum = (sizes.take i).sum + sizes[i] :=
    List.sum_take_succ sizes i hi
  have h2 : (sizes.take (i + 1)).sum ≤ sizes.sum := by
    conv_rhs => rw [← List.take_append_drop (i + 1) sizes]
    rw [List.sum_append]
    exact Nat.le_add_right _ _
  rw [colOffset, List.getD_eq_getElem _ _ hi]
  omega

theorem sliceBlock_addMat (A B : List (List ℚ)) (Q i o n : ℕ) :
    sliceBlock (addMat A B) Q i o n = addMat (sliceBlock A Q i o n) (sliceBlock B Q i o n) := by
  have hfun : (fun (a b : List ℚ) => ((List.zipWith (· + ·) a b).drop o).take n)
      = fun a b => List.zipWith (· + ·) ((a.drop o).take n) ((b.drop o).take n) := by
    funext a b
    rw [List.drop_zipWith, List.take_zipWith]
  simp only [sliceBlock, addMat, List.drop_zipWith, List.take_zipWith, List.map_zipWith,
    List.zipWith_map, hfun]

theorem sliceBlock_smulMat (w : ℚ) (M : List (List ℚ)) (Q i o n : ℕ) :
    sliceBlock (smulMat w M) Q i o n = smulMat w (sliceBlock M Q i o n) := by
  simp only [sliceBlock, smulMat, ← List.map_drop, ← List.map_take, List.map_map]
  congr 1
  funext row
  simp [Function.comp, ← List.map_drop, ← List.map_take]

theorem sliceBlock_map_map {A B : Type} (a : List A) (b : List B) (g : A → B → ℚ)
    (Q i o n : ℕ) :
    sliceBlock (a.map (fun p => b.map (fun t => g p t))) Q i o n
      = ((a.drop (i * Q)).take Q).map (fun p => ((b.drop o).take n).map (fun t => g p t)) := by
  simp only [sliceBlock, ← List.map_drop, ← List.map_take, List.map_map]
  congr 1
  funext p
  simp [Function.comp, ← List.map_drop, ← List.map_take]

theorem num_queries_eq {Q Cl : ℕ} {out : Outputs} {tgts : List Target}
    (h : ValidBatch Q Cl out tgts) (hne : tgts ≠ []) :
    (out.pred_logits.headD []).length = Q := by
  obtain ⟨hl, -, -, hQl, -⟩ := h
  cases hlog : out.pred_logits with
  | nil =>
    rw [hlog] at hl
    simp only [List.length_nil] at hl
    exact absurd (List.length_eq_zero.mp hl.symm) hne
  | cons x xs =>
    have hx : x ∈ out.pred_logits := by rw [hlog]; exact List.mem_cons_self x xs
    simpa using hQl x hx

theorem forward_getD {P : NumPrims} {m : HungarianMatcher} {out : Outputs}
    {tgts : List Target} {i : ℕ} (hi : i < out.pred_logits.length) :
    (HungarianMatcher.forward P m out tgts).getD i ([], [])
      = linear_sum_assignment (sliceBlock (costMatrix P m out tgts)
          (out.pred_logits.headD []).length i (colOffset (tgtSizes tgts) i)
          ((tgtSizes tgts).getD i 0)) := by
  simp only [HungarianMatcher.forward]
  rw [List.getD_eq_getElem _ _ (by simpa using hi), List.getElem_map, List.getElem_range]

theorem block_eq_direct {P : NumPrims} {m : HungarianMatcher} {Q Cl : ℕ}
    {out : Outputs} {tgts : List Target} (h : ValidBatch Q Cl out tgts)
    {i : ℕ} (hi : i < tgts.length) :
    sliceBlock (costMatrix P m out tgts) Q i (colOffset (tgtSizes tgts) i)
        ((tgtSizes tgts).getD i 0)
      = directCostMatrix P m (out.pred_logits.getD i []) (out.pred_boxes.getD i [])
          (out.pred_polys.getD i []) (tgts.getD i emptyTarget) := by
  obtain ⟨hl, hb, hp, hQl, hQb, hQp, -, -, -, hT⟩ := h
  have hiL : i < out.pred_logits.length := by rw [hl]; exact hi
  have hiB : i < out.pred_boxes.length := by rw [hb]; exact hi
  have hiP : i < out.pred_polys.length := by rw [hp]; exact hi
  have chL : (out.pred_logits.flatten.drop (i * Q)).take Q = out.pred_logits.getD i [] :=
    flatten_chunk_uniform hQl hiL
  have chB : (out.pred_boxes.flatten.drop (i * Q)).take Q = out.pred_boxes.getD i [] :=
    flatten_chunk_uniform hQb hiB
  have chP : (out.pred_polys.flatten.drop (i * Q)).take Q = out.pred_polys.getD i [] :=
    flatten_chunk_uniform hQp hiP
  have cid : ((tgts.map Target.labels).flatten.drop (colOffset (tgtSizes tgts) i)).take
      ((tgtSizes tgts).getD i 0) = (tgts.getD i emptyTarget).labels :=
    tgt_chunk (fun t ht => (hT t ht).1) hi
  have cpo : ((tgts.map Target.polys).flatten.drop (colOffset (tgtSizes tgts) i)).take
      ((tgtSizes tgts).getD i 0) = (tgts.getD i emptyTarget).polys :=
    tgt_chunk (fun t ht => (hT t ht).2.1) hi
  have cbo : ((tgts.map Target.boxes).flatten.drop (colOffset (tgtSizes tgts) i)).take
      ((tgtSizes tgts).getD i 0) = (tgts.getD i emptyTarget).boxes :=
    tgt_chunk (fun _ _ => rfl) hi
  have cth : ((tgts.map Target.theta).flatten.drop (colOffset (tgtSizes tgts) i)).take
      ((tgtSizes tgts).getD i 0) = (tgts.getD i emptyTarget).theta :=
    tgt_chunk (fun t ht => (hT t ht).2.2.1) hi
  simp only [costMatrix, directCostMatrix, costClassMat, costBboxMat, costGiouMat]
  rw [sliceBlock_addMat, sliceBlock_addMat, sliceBlock_smulMat, sliceBlock_smulMat,
    sliceBlock_smulMat, sliceBlock_map_map, sliceBlock_map_map, sliceBlock_map_map]
  rw [← List.map_drop, ← List.map_take]
  rw [chL, chB, chP, cid, cpo]
  rw [List.drop_zipWith, List.take_zipWith, cbo, cth]

theorem directCostMatrix_shape {P : NumPrims} {m : HungarianMatcher}
    {logits oboxes polys : List (List ℚ)} {t : Target} {Q N : ℕ}
    (h1 : logits.length = Q) (h2 : oboxes.length = Q) (h3 : polys.length = Q)
    (h4 : t.labels.length = N) (h5 : t.polys.length = N) (h6 : t.boxes.length = N)
    (h7 : t.theta.length = N) :
    (directCostMatrix P m logits oboxes polys t).length = Q ∧
    ∀ row ∈ directCostMatrix P m logits oboxes polys t, row.length = N := by
  constructor
  · simp [directCostMatrix, addMat, smulMat, costClassMat, costBboxMat, costGiouMat,
      List.length_zipWith, h1, h2, h3]
  · intro row hrow
    rw [List.mem_iff_getElem] at hrow
    obtain ⟨j, hj, hrw⟩ := hrow
    subst hrw
    simp only [directCostMatrix, addMat, smulMat, costClassMat, costBboxMat,
      costGiouMat] at hj ⊢
    simp only [List.getElem_zipWith, List.getElem_map]
    simp [List.length_zipWith, List.length_map, h4, h5, h6, h7]

theorem direct_shape_of_valid {P : NumPrims} {m : HungarianMatcher} {Q Cl : ℕ}
    {out : Outputs} {tgts : List Target} (h : ValidBatch Q Cl out tgts)
    {i : ℕ} (hi : i < tgts.length) :
    (directCostMatrix P m (out.pred_logits.getD i []) (out.pred_boxes.getD i [])
        (out.pred_polys.getD i []) (tgts.getD i emptyTarget)).length = Q ∧
    ∀ row ∈ directCostMatrix P m (out.pred_logits.getD i []) (out.pred_boxes.getD i [])
        (out.pred_polys.getD i []) (tgts.getD i emptyTarget),
      row.length = (tgtSizes tgts).getD i 0 := by
  obtain ⟨hl, hb, hp, hQl, hQb, hQp, -, -, -, hT⟩ := h
  have hiL : i < out.pred_logits.length := by rw [hl]; exact hi
  have hiB : i < out.pred_boxes.length := by rw [hb]; exact hi
  have hiP : i < out.pred_polys.length := by rw [hp]; exact hi
  have ht : tgts.getD i emptyTarget ∈ tgts := by
    rw [List.getD_eq_getElem _ _ hi]
    exact List.getElem_mem hi
  obtain ⟨e1, e2, e3, -⟩ := hT _ ht
  have hN : (tgtSizes tgts).getD i 0 = (tgts.getD i emptyTarget).boxes.length := by
    rw [tgtSizes, List.getD_eq_getElem _ _ (by simpa using hi),
      List.getD_eq_getElem _ _ hi, List.getElem_map]
  exact directCostMatrix_shape
    (by rw [List.getD_eq_getElem _ _ hiL]; exact hQl _ (List.getElem_mem hiL))
    (by rw [List.getD_eq_getElem _ _ hiB]; exact hQb _ (List.getElem_mem hiB))
    (by rw [List.getD_eq_getElem _ _ hiP]; exact hQp _ (List.getElem_mem hiP))
    (by rw [hN]; exact e1) (by rw [hN]; exact e2) (by rw [hN]) (by rw [hN]; exact e3)

theorem forward_eq_direct {P : NumPrims} {m : HungarianMatcher} {Q Cl : ℕ}
    {out : Outputs} {tgts : List Target} (h : ValidBatch Q Cl out tgts)
    {i : ℕ} (hi : i < tgts.length) :
    (HungarianMatcher.forward P m out tgts).getD i ([], [])
      = linear_sum_assignment (directCostMatrix P m (out.pred_logits.getD i [])
          (out.pred_boxes.getD i []) (out.pred_polys.getD i []) (tgts.getD i emptyTarget)) := by
  have hne : tgts ≠ [] := fun hn => by rw [hn] at hi; simp at hi
  have hq := num_queries_eq h hne
  have hiL : i < out.pred_logits.length := by rw [h.1]; exact hi
  rw [forward_getD hiL, hq, block_eq_direct h hi]

theorem getD_map_list {α : Type} {β : Type} {l : List α} (f : α → List β) (da : α)
    {r : ℕ} (hr : r < l.length) : (l.map f).getD r [] = f (l.getD r da) := by
  rw [List.getD_eq_getElem _ _ (by simpa using hr), List.getElem_map,
    List.getD_eq_getElem _ _ hr]

theorem map_getD_q {β : Type} {b : List β} (g : β → ℚ) (db : β) {t : ℕ}
    (ht : t < b.length) : (b.map g).getD t 0 = g (b.getD t db) := by
  rw [List.getD_eq_getElem _ _ (by simpa using ht), List.getElem_map,
    List.getD_eq_getElem _ _ ht]

theorem smulMat_getD {w : ℚ} {M : List (List ℚ)} {r : ℕ} (hr : r < M.length) :
    (smulMat w M).getD r [] = (M.getD r []).map (fun x => w * x) := by
  rw [smulMat, List.getD_eq_getElem _ _ (by simpa using hr), List.getElem_map,
    List.getD_eq_getElem _ _ hr]

theorem addMat_getD {A B : List (List ℚ)} {r : ℕ} (hrA : r < A.length) (hrB : r < B.length) :
    (addMat A B).getD r [] = List.zipWith (· + ·) (A.getD r []) (B.getD r []) := by
  rw [addMat, List.getD_eq_getElem _ _ (by rw [List.length_zipWith]; exact lt_min hrA hrB),
    List.getElem_zipWith, List.getD_eq_getElem _ _ hrA, List.getD_eq_getElem _ _ hrB]

theorem zipWith_add_getD {ra rb : List ℚ} {t : ℕ} (ha : t < ra.length) (hb : t < rb.length) :
    (List.zipWith (· + ·) ra rb).getD t 0 = ra.getD t 0 + rb.getD t 0 := by
  rw [List.getD_eq_getElem _ _ (by rw [List.length_zipWith]; exact lt_min ha hb),
    List.getElem_zipWith, List.getD_eq_getElem _ _ ha, List.getD_eq_getElem _ _ hb]

theorem zipWith_append_getD {a b : List (List ℚ)} {t : ℕ} (ha : t < a.length)
    (hb : t < b.length) :
    (List.zipWith (fun x y => x ++ y) a b).getD t [] = a.getD t [] ++ b.getD t [] := by
  rw [List.getD_eq_getElem _ _ (by rw [List.length_zipWith]; exact lt_min ha hb),
    List.getElem_zipWith, List.getD_eq_getElem _ _ ha, List.getD_eq_getElem _ _ hb]

theorem costClassMat_getD {P : NumPrims} {out_prob : List (List ℚ)} {tgt_ids : List ℕ}
    {r : ℕ} (hr : r < out_prob.length) :
    (costClassMat P out_prob tgt_ids).getD r []
      = tgt_ids.map (fun c => ((out_prob.getD r []).map (pos_cost_class P)).getD c 0
          - ((out_prob.getD r []).map (neg_cost_class P)).getD c 0) := by
  rw [costClassMat, List.getD_eq_getElem _ _ (by simpa using hr), List.getElem_map,
    List.getD_eq_getElem _ _ hr]

theorem costBboxMat_getD {out_polys tgt_polys : List (List ℚ)} {r : ℕ}
    (hr : r < out_polys.length) :
    (costBboxMat out_polys tgt_polys).getD r []
      = tgt_polys.map (fun g => matched_l1_loss (out_polys.getD r []) g) :=
  getD_map_list _ [] hr

theorem costGiouMat_getD {P : NumPrims} {out_oboxes tgt_oboxes : List (List ℚ)} {r : ℕ}
    (hr : r < out_oboxes.length) :
    (costGiouMat P out_oboxes tgt_oboxes).getD r []
      = tgt_oboxes.map (fun g => cal_giou P (out_oboxes.getD r []) g) :=
  getD_map_list _ [] hr

/-- C1: on a concrete valid batch (one image, one prediction, one target) the
matcher returns, for image 0, the bare pair of index sequences `([0], [0])` —
there is no third aligned iou sequence, although the docstring of `forward`
(and the spec) promise `(prediction_index, target_index, iou)` triples. -/
theorem forward_returns_bare_index_pairs :
    HungarianMatcher.forward P0 ⟨1, 1, 1⟩ out1 [tgt1] = [([0], [0])] := by decide

/-- C3: for every valid batch and image `i`, both returned index sequences
have length exactly `min Q N_i`, where `N_i` is the target count of image `i`. -/
theorem forward_length_min (P : NumPrims) (m : HungarianMatcher) {Q Cl : ℕ}
    {out : Outputs} {tgts : List Target} (h : ValidBatch Q Cl out tgts)
    {i : ℕ} (hi : i < tgts.length) :
    ((HungarianMatcher.forward P m out tgts).getD i ([], [])).1.length
        = min Q ((tgtSizes tgts).getD i 0) ∧
    ((HungarianMatcher.forward P m out tgts).getD i ([], [])).2.length
        = min Q ((tgtSizes tgts).getD i 0) := by
  obtain ⟨hlen, hrows⟩ := direct_shape_of_valid (P := P) (m := m) h hi
  have hp := lsa_props hrows
  rw [hlen] at hp
  rw [forward_eq_direct h hi]
  exact ⟨hp.1, hp.2.1⟩

/-- Witness for C3 on a concrete batch: image 0 of `out2` has 2 predictions
and 1 target, so both sequences have length `min 2 1 = 1`. -/
theorem forward_length_min_w :
    ValidBatch 2 1 out2 [tgt2a, tgt2b] ∧
    (((HungarianMatcher.forward P0 ⟨1, 1, 1⟩ out2 [tgt2a, tgt2b]).getD 0 ([], [])).1.length
        = min 2 ((tgtSizes [tgt2a, tgt2b]).getD 0 0) ∧
     ((HungarianMatcher.forward P0 ⟨1, 1, 1⟩ out2 [tgt2a, tgt2b]).getD 0 ([], [])).2.length
        = min 2 ((tgtSizes [tgt2a, tgt2b]).getD 0 0)) :=
  ⟨by decide, forward_length_min P0 ⟨1, 1, 1⟩
    (by decide : ValidBatch 2 1 out2 [tgt2a, tgt2b]) (by decide)⟩

/-- C4: construction raises exactly when all three cost weights are zero, and
succeeds for every other weight triple. -/
theorem init_fails_iff_all_weights_zero (cost_class cost_bbox cost_giou : ℚ) :
    HungarianMatcher.init cost_class cost_bbox cost_giou = none
      ↔ cost_class = 0 ∧ cost_bbox = 0 ∧ cost_giou = 0 := by
  rw [HungarianMatcher.init]
  by_cases h : cost_class ≠ 0 ∨ cost_bbox ≠ 0 ∨ cost_giou ≠ 0
  · rw [if_pos h]
    simp only [reduceCtorEq, false_iff]
    tauto
  · rw [if_neg h]
    push_neg at h
    simp only [true_iff]
    exact h

/-- C5: for every valid batch, an image with zero targets yields the empty
pair of index sequences (and, the embedding being total, no exception). -/
theorem forward_empty_targets (P : NumPrims) (m : HungarianMatcher) {Q Cl : ℕ}
    {out : Outputs} {tgts : List Target} (h : ValidBatch Q Cl out tgts)
    {i : ℕ} (hi : i < tgts.length) (hz : (tgtSizes tgts).getD i 0 = 0) :
    (HungarianMatcher.forward P m out tgts).getD i ([], []) = ([], []) := by
  obtain ⟨hlen, hrows⟩ := direct_shape_of_valid (P := P) (m := m) h hi
  rw [hz] at hrows
  have hp := lsa_props hrows
  rw [forward_eq_direct h hi, Prod.ext_iff]
  exact ⟨List.length_eq_zero.mp (by simpa using hp.1),
         List.length_eq_zero.mp (by simpa using hp.2.1)⟩

/-- Witness for C5: image 1 of the concrete batch `out2` has zero targets and
the matcher returns `([], [])` for it. -/
theorem forward_empty_targets_w :
    ValidBatch 2 1 out2 [tgt2a, tgt2b] ∧
    (HungarianMatcher.forward P0 ⟨1, 1, 1⟩ out2 [tgt2a, tgt2b]).getD 1 ([], []) = ([], []) :=
  ⟨by decide, forward_empty_targets P0 ⟨1, 1, 1⟩
    (by decide : ValidBatch 2 1 out2 [tgt2a, tgt2b]) (by decide) (by decide)⟩

/-- C7: the column block of the batched cost matrix belonging to image `i`
(width `N_i`, at the offset given by the target counts of the preceding
images, against the `Q` rows of image `i`) equals the cost matrix computed
directly from the predictions and targets of image `i`, and the assignment the matcher
returns for image `i` is the assignment of that directly-computed matrix. -/
theorem batched_block_equals_per_image (P : NumPrims) (m : HungarianMatcher) {Q Cl : ℕ}
    {out : Outputs} {tgts : List Target} (h : ValidBatch Q Cl out tgts)
    {i : ℕ} (hi : i < tgts.length) :
    sliceBlock (costMatrix P m out tgts) Q i (colOffset (tgtSizes tgts) i)
        ((tgtSizes tgts).getD i 0)
      = directCostMatrix P m (out.pred_logits.getD i []) (out.pred_boxes.getD i [])
          (out.pred_polys.getD i []) (tgts.getD i emptyTarget) ∧
    (HungarianMatcher.forward P m out tgts).getD i ([], [])
      = linear_sum_assignment (directCostMatrix P m (out.pred_logits.getD i [])
          (out.pred_boxes.getD i []) (out.pred_polys.getD i [])
          (tgts.getD i emptyTarget)) :=
  ⟨block_eq_direct h hi, forward_eq_direct h hi⟩

/-- Witness for C7 at image 0 of the concrete two-image batch. -/
theorem batched_block_equals_per_image_w :
    ValidBatch 2 1 out2 [tgt2a, tgt2b] ∧
    (sliceBlock (costMatrix P0 ⟨1, 1, 1⟩ out2 [tgt2a, tgt2b]) 2 0
        (colOffset (tgtSizes [tgt2a, tgt2b]) 0) ((tgtSizes [tgt2a, tgt2b]).getD 0 0)
      = directCostMatrix P0 ⟨1, 1, 1⟩ (out2.pred_logits.getD 0 [])
          (out2.pred_boxes.getD 0 []) (out2.pred_polys.getD 0 [])
          ([tgt2a, tgt2b].getD 0 emptyTarget) ∧
    (HungarianMatcher.forward P0 ⟨1, 1, 1⟩ out2 [tgt2a, tgt2b]).getD 0 ([], [])
      = linear_sum_assignment (directCostMatrix P0 ⟨1, 1, 1⟩ (out2.pred_logits.getD 0 [])
          (out2.pred_boxes.getD 0 []) (out2.pred_polys.getD 0 [])
          ([tgt2a, tgt2b].getD 0 emptyTarget))) :=
  ⟨by decide, batched_block_equals_per_image P0 ⟨1, 1, 1⟩
    (by decide : ValidBatch 2 1 out2 [tgt2a, tgt2b]) (by decide)⟩

/-- C8: for every valid batch and image, the returned prediction indices are
pairwise distinct, the returned target indices are pairwise distinct, and all
indices are in range (`0..Q-1` and `0..N_i-1` respectively). -/
theorem forward_indices_distinct_in_range (P : NumPrims) (m : HungarianMatcher) {Q Cl : ℕ}
    {out : Outputs} {tgts : List Target} (h : ValidBatch Q Cl out tgts)
    {i : ℕ} (hi : i < tgts.length) :
    ((HungarianMatcher.forward P m out tgts).getD i ([], [])).1.Nodup ∧
    ((HungarianMatcher.forward P m out tgts).getD i ([], [])).2.Nodup ∧
    (∀ r ∈ ((HungarianMatcher.forward P m out tgts).getD i ([], [])).1, r < Q) ∧
    (∀ c ∈ ((HungarianMatcher.forward P m out tgts).getD i ([], [])).2,
      c < (tgtSizes tgts).getD i 0) := by
  obtain ⟨hlen, hrows⟩ := direct_shape_of_valid (P := P) (m := m) h hi
  have hp := lsa_props hrows
  rw [hlen] at hp
  rw [forward_eq_direct h hi]
  exact ⟨hp.2.2.1, hp.2.2.2.1, hp.2.2.2.2.1, hp.2.2.2.2.2.1⟩

/-- Witness for C8 at image 0 of the concrete two-image batch. -/
theorem forward_indices_distinct_in_range_w :
    ValidBatch 2 1 out2 [tgt2a, tgt2b] ∧
    (((HungarianMatcher.forward P0 ⟨1, 1, 1⟩ out2 [tgt2a, tgt2b]).getD 0 ([], [])).1.Nodup ∧
     ((HungarianMatcher.forward P0 ⟨1, 1, 1⟩ out2 [tgt2a, tgt2b]).getD 0 ([], [])).2.Nodup ∧
     (∀ r ∈ ((HungarianMatcher.forward P0 ⟨1, 1, 1⟩ out2 [tgt2a, tgt2b]).getD 0 ([], [])).1,
        r < 2) ∧
     (∀ c ∈ ((HungarianMatcher.forward P0 ⟨1, 1, 1⟩ out2 [tgt2a, tgt2b]).getD 0 ([], [])).2,
        c < (tgtSizes [tgt2a, tgt2b]).getD 0 0)) :=
  ⟨by decide, forward_indices_distinct_in_range P0 ⟨1, 1, 1⟩
    (by decide : ValidBatch 2 1 out2 [tgt2a, tgt2b]) (by decide)⟩

/-- C9: the matcher is deterministic — two calls with identical construction
weights and bitwise-identical inputs return identical results. -/
theorem forward_deterministic (P : NumPrims) (m : HungarianMatcher)
    (oA oB : Outputs) (tA tB : List Target) (ho : oA = oB) (ht : tA = tB) :
    HungarianMatcher.forward P m oA tA = HungarianMatcher.forward P m oB tB := by
  rw [ho, ht]

/-- Witness for C9: two identical calls on the concrete batch agree. -/
theorem forward_deterministic_w :
    HungarianMatcher.forward P0 ⟨1, 1, 1⟩ out1 [tgt1]
      = HungarianMatcher.forward P0 ⟨1, 1, 1⟩ out1 [tgt1] :=
  forward_deterministic P0 ⟨1, 1, 1⟩ out1 out1 [tgt1] [tgt1] rfl rfl

/-- C10: for every valid batch and image, the returned prediction-index
sequence is strictly increasing. -/
theorem forward_pred_indices_sorted (P : NumPrims) (m : HungarianMatcher) {Q Cl : ℕ}
    {out : Outputs} {tgts : List Target} (h : ValidBatch Q Cl out tgts)
    {i : ℕ} (hi : i < tgts.length) :
    List.Pairwise (· < ·) ((HungarianMatcher.forward P m out tgts).getD i ([], [])).1 := by
  obtain ⟨hlen, hrows⟩ := direct_shape_of_valid (P := P) (m := m) h hi
  have hp := lsa_props hrows
  rw [forward_eq_direct h hi]
  exact hp.2.2.2.2.2.2

/-- Witness for C10 at image 0 of the concrete two-image batch. -/
theorem forward_pred_indices_sorted_w :
    ValidBatch 2 1 out2 [tgt2a, tgt2b] ∧
    List.Pairwise (· < ·)
      ((HungarianMatcher.forward P0 ⟨1, 1, 1⟩ out2 [tgt2a, tgt2b]).getD 0 ([], [])).1 :=
  ⟨by decide, forward_pred_indices_sorted P0 ⟨1, 1, 1⟩
    (by decide : ValidBatch 2 1 out2 [tgt2a, tgt2b]) (by decide)⟩

/-- C2: each entry of the classification cost matrix equals
`α·(1−p)^γ·(−log(p+ε)) − (1−α)·p^γ·(−log(1−p+ε))` at the target class of the pair,
with `α = 0.25 = 1/4`, `γ = 2.0`, `ε = 1e-8 = 1/100000000`, where `p` is the
sigmoid of the logit of the prediction for that class. -/
theorem cost_class_entry_formula (P : NumPrims) (logitRows : List (List ℚ))
    (tgt_ids : List ℕ) (r t : ℕ) (hr : r < logitRows.length) (ht : t < tgt_ids.length)
    (hc : tgt_ids.getD t 0 < (logitRows.getD r []).length) :
    ((costClassMat P (logitRows.map (fun row => row.map P.sigmoid)) tgt_ids).getD r []).getD
        t 0
      = (1 / 4 : ℚ)
          * (1 - P.sigmoid ((logitRows.getD r []).getD (tgt_ids.getD t 0) 0)) ^ 2
          * (-(P.log (P.sigmoid ((logitRows.getD r []).getD (tgt_ids.getD t 0) 0)
              + 1 / 100000000)))
        - (1 - 1 / 4) * (P.sigmoid ((logitRows.getD r []).getD (tgt_ids.getD t 0) 0)) ^ 2
          * (-(P.log (1 - P.sigmoid ((logitRows.getD r []).getD (tgt_ids.getD t 0) 0)
              + 1 / 100000000))) := by
  have hrP : r < (logitRows.map (fun row => row.map P.sigmoid)).length := by
    simpa using hr
  have hrow : (logitRows.map (fun row => row.map P.sigmoid)).getD r []
      = (logitRows.getD r []).map P.sigmoid :=
    getD_map_list (fun row => row.map P.sigmoid) [] hr
  have hcσ : tgt_ids.getD t 0 < ((logitRows.getD r []).map P.sigmoid).length := by
    simpa using hc
  rw [costClassMat_getD hrP, map_getD_q _ 0 ht, hrow,
    map_getD_q (pos_cost_class P) 0 hcσ, map_getD_q (neg_cost_class P) 0 hcσ,
    map_getD_q P.sigmoid 0 hc]
  simp only [pos_cost_class, neg_cost_class, hmAlpha, hmEps]

/-- Witness for C2 at a concrete logit row, class list and index pair. -/
theorem cost_class_entry_formula_w :
    ((costClassMat P0 ([[(3 : ℚ)]].map (fun row => row.map P0.sigmoid)) [0]).getD 0 []).getD
        0 0
      = (1 / 4 : ℚ) * (1 - P0.sigmoid (([[(3 : ℚ)]].getD 0 []).getD ([(0 : ℕ)].getD 0 0) 0)) ^ 2
          * (-(P0.log (P0.sigmoid (([[(3 : ℚ)]].getD 0 []).getD ([(0 : ℕ)].getD 0 0) 0)
              + 1 / 100000000)))
        - (1 - 1 / 4) * (P0.sigmoid (([[(3 : ℚ)]].getD 0 []).getD ([(0 : ℕ)].getD 0 0) 0)) ^ 2
          * (-(P0.log (1 - P0.sigmoid (([[(3 : ℚ)]].getD 0 []).getD ([(0 : ℕ)].getD 0 0) 0)
              + 1 / 100000000))) :=
  cost_class_entry_formula P0 [[(3 : ℚ)]] [0] 0 0 (by decide) (by decide) (by decide)

theorem triple_entry {cb cc cg : ℚ} {BB KK GG : List (List ℚ)} {r t L S : ℕ}
    (hB : BB.length = L) (hK : KK.length = L) (hG : GG.length = L) (hr : r < L)
    (hBr : (BB.getD r []).length = S) (hKr : (KK.getD r []).length = S)
    (hGr : (GG.getD r []).length = S) (ht : t < S) :
    ((addMat (addMat (smulMat cb BB) (smulMat cc KK)) (smulMat cg GG)).getD r []).getD t 0
      = cb * (BB.getD r []).getD t 0 + cc * (KK.getD r []).getD t 0
        + cg * (GG.getD r []).getD t 0 := by
  have hrB : r < BB.length := by rw [hB]; exact hr
  have hrK : r < KK.length := by rw [hK]; exact hr
  have hrG : r < GG.length := by rw [hG]; exact hr
  have l1 : (smulMat cb BB).length = L := by rw [smulMat, List.length_map, hB]
  have l2 : (smulMat cc KK).length = L := by rw [smulMat, List.length_map, hK]
  have l3 : (smulMat cg GG).length = L := by rw [smulMat, List.length_map, hG]
  have lX : (addMat (smulMat cb BB) (smulMat cc KK)).length = L := by
    rw [addMat, List.length_zipWith, l1, l2]
    exact Nat.min_self L
  rw [addMat_getD (by rw [lX]; exact hr) (by rw [l3]; exact hr),
    addMat_getD (by rw [l1]; exact hr) (by rw [l2]; exact hr),
    smulMat_getD hrB, smulMat_getD hrK, smulMat_getD hrG]
  have htB : t < ((BB.getD r []).map (fun x => cb * x)).length := by
    rw [List.length_map, hBr]; exact ht
  have htK : t < ((KK.getD r []).map (fun x => cc * x)).length := by
    rw [List.length_map, hKr]; exact ht
  have htG : t < ((GG.getD r []).map (fun x => cg * x)).length := by
    rw [List.length_map, hGr]; exact ht
  rw [zipWith_add_getD (by rw [List.length_zipWith]; exact lt_min htB htK) htG,
    zipWith_add_getD htB htK,
    map_getD_q _ 0 (by rw [hBr]; exact ht),
    map_getD_q _ 0 (by rw [hKr]; exact ht),
    map_getD_q _ 0 (by rw [hGr]; exact ht)]

/-- C6: each entry of the final cost matrix handed to the assignment solver
equals `cost_class · classification_cost + cost_bbox · l1_cost + cost_giou ·
giou_cost` for the corresponding (prediction, target) pair, with the three
construction-time weights. -/
theorem final_cost_is_weighted_sum (P : NumPrims) (m : HungarianMatcher) {Q Cl : ℕ}
    {out : Outputs} {tgts : List Target} (h : ValidBatch Q Cl out tgts)
    {r t : ℕ} (hr : r < tgts.length * Q) (ht : t < (tgtSizes tgts).sum) :
    ((costMatrix P m out tgts).getD r []).getD t 0
      = m.cost_class
          * (pos_cost_class P (P.sigmoid ((out.pred_logits.flatten.getD r []).getD
                ((tgts.map Target.labels).flatten.getD t 0) 0))
             - neg_cost_class P (P.sigmoid ((out.pred_logits.flatten.getD r []).getD
                ((tgts.map Target.labels).flatten.getD t 0) 0)))
        + m.cost_bbox
          * matched_l1_loss (out.pred_polys.flatten.getD r [])
              ((tgts.map Target.polys).flatten.getD t [])
        + m.cost_giou
          * cal_giou P (out.pred_boxes.flatten.getD r [])
              ((tgts.map Target.boxes).flatten.getD t []
                ++ (tgts.map Target.theta).flatten.getD t []) := by
  obtain ⟨hl, hb, hp, hQl, hQb, hQp, hCll, -, -, hT⟩ := h
  have hLflat : out.pred_logits.flatten.length = tgts.length * Q := by
    rw [flatten_length_uniform hQl, hl]
  have hBflat : out.pred_boxes.flatten.length = tgts.length * Q := by
    rw [flatten_length_uniform hQb, hb]
  have hPflat : out.pred_polys.flatten.length = tgts.length * Q := by
    rw [flatten_length_uniform hQp, hp]
  have hrL : r < out.pred_logits.flatten.length := by rw [hLflat]; exact hr
  have hrB : r < out.pred_boxes.flatten.length := by rw [hBflat]; exact hr
  have hrP : r < out.pred_polys.flatten.length := by rw [hPflat]; exact hr
  have hI : (tgts.map Target.labels).flatten.length = (tgtSizes tgts).sum :=
    tgt_flat_length (fun t2 ht2 => (hT t2 ht2).1)
  have hPo : (tgts.map Target.polys).flatten.length = (tgtSizes tgts).sum :=
    tgt_flat_length (fun t2 ht2 => (hT t2 ht2).2.1)
  have hBo : (tgts.map Target.boxes).flatten.length = (tgtSizes tgts).sum :=
    tgt_flat_length (fun _ _ => rfl)
  have hTh : (tgts.map Target.theta).flatten.length = (tgtSizes tgts).sum :=
    tgt_flat_length (fun t2 ht2 => (hT t2 ht2).2.2.1)
  have htI : t < (tgts.map Target.labels).flatten.length := by rw [hI]; exact ht
  have htPo : t < (tgts.map Target.polys).flatten.length := by rw [hPo]; exact ht
  have htBo : t < (tgts.map Target.boxes).flatten.length := by rw [hBo]; exact ht
  have htTh : t < (tgts.map Target.theta).flatten.length := by rw [hTh]; exact ht
  have hrProb : r < (out.pred_logits.flatten.map (fun row => row.map P.sigmoid)).length := by
    rw [List.length_map]; exact hrL
  have hrowCl : (out.pred_logits.flatten.getD r []).length = Cl := by
    rw [List.getD_eq_getElem _ _ hrL]
    obtain ⟨l, hlmem, hrow⟩ := List.mem_flatten.mp (List.getElem_mem hrL)
    exact hCll l hlmem _ hrow
  have hcCl : (tgts.map Target.labels).flatten.getD t 0 < Cl := by
    have hmem : (tgts.map Target.labels).flatten.getD t 0
        ∈ (tgts.map Target.labels).flatten := by
      rw [List.getD_eq_getElem _ _ htI]
      exact List.getElem_mem htI
    obtain ⟨l, hlmem, hcm⟩ := List.mem_flatten.mp hmem
    obtain ⟨tg, htg, rfl⟩ := List.mem_map.mp hlmem
    exact (hT tg htg).2.2.2.1 _ hcm
  have hc : (tgts.map Target.labels).flatten.getD t 0
      < (out.pred_logits.flatten.getD r []).length := by rw [hrowCl]; exact hcCl
  have hcσ : (tgts.map Target.labels).flatten.getD t 0
      < ((out.pred_logits.flatten.getD r []).map P.sigmoid).length := by
    rw [List.length_map]; exact hc
  have hrowσ : (out.pred_logits.flatten.map (fun row => row.map P.sigmoid)).getD r []
      = (out.pred_logits.flatten.getD r []).map P.sigmoid :=
    getD_map_list (fun row => row.map P.sigmoid) [] hrL
  have lB : (costBboxMat out.pred_polys.flatten (tgts.map Target.polys).flatten).length
      = tgts.length * Q := by rw [costBboxMat, List.length_map]; exact hPflat
  have lK : (costClassMat P (out.pred_logits.flatten.map (fun row => row.map P.sigmoid))
      (tgts.map Target.labels).flatten).length = tgts.length * Q := by
    rw [costClassMat, List.length_map, List.length_map]; exact hLflat
  have lG : (costGiouMat P out.pred_boxes.flatten
      (List.zipWith (fun x y => x ++ y) (tgts.map Target.boxes).flatten
        (tgts.map Target.theta).flatten)).length = tgts.length * Q := by
    rw [costGiouMat, List.length_map]; exact hBflat
  have rowB : ((costBboxMat out.pred_polys.flatten
      (tgts.map Target.polys).flatten).getD r []).length = (tgtSizes tgts).sum := by
    rw [costBboxMat_getD hrP, List.length_map, hPo]
  have rowK : ((costClassMat P (out.pred_logits.flatten.map (fun row => row.map P.sigmoid))
      (tgts.map Target.labels).flatten).getD r []).length = (tgtSizes tgts).sum := by
    rw [costClassMat_getD hrProb, List.length_map, hI]
  have rowG : ((costGiouMat P out.pred_boxes.flatten
      (List.zipWith (fun x y => x ++ y) (tgts.map Target.boxes).flatten
        (tgts.map Target.theta).flatten)).getD r []).length = (tgtSizes tgts).sum := by
    rw [costGiouMat_getD hrB, List.length_map, List.length_zipWith, hBo, hTh]
    exact Nat.min_self _
  have eB : ((costBboxMat out.pred_polys.flatten
      (tgts.map Target.polys).flatten).getD r []).getD t 0
      = matched_l1_loss (out.pred_polys.flatten.getD r [])
          ((tgts.map Target.polys).flatten.getD t []) := by
    rw [costBboxMat_getD hrP]
    exact map_getD_q _ [] htPo
  have eK : ((costClassMat P (out.pred_logits.flatten.map (fun row => row.map P.sigmoid))
      (tgts.map Target.labels).flatten).getD r []).getD t 0
      = pos_cost_class P (P.sigmoid ((out.pred_logits.flatten.getD r []).getD
          ((tgts.map Target.labels).flatten.getD t 0) 0))
        - neg_cost_class P (P.sigmoid ((out.pred_logits.flatten.getD r []).getD
          ((tgts.map Target.labels).flatten.getD t 0) 0)) := by
    rw [costClassMat_getD hrProb, map_getD_q _ 0 htI, hrowσ,
      map_getD_q (pos_cost_class P) 0 hcσ, map_getD_q (neg_cost_class P) 0 hcσ,
      map_getD_q P.sigmoid 0 hc]
  have eG : ((costGiouMat P out.pred_boxes.flatten
      (List.zipWith (fun x y => x ++ y) (tgts.map Target.boxes).flatten
        (tgts.map Target.theta).flatten)).getD r []).getD t 0
      = cal_giou P (out.pred_boxes.flatten.getD r [])
          ((tgts.map Target.boxes).flatten.getD t []
            ++ (tgts.map Target.theta).flatten.getD t []) := by
    rw [costGiouMat_getD hrB,
      map_getD_q _ [] (by rw [List.length_zipWith, hBo, hTh]; simpa using ht),
      zipWith_append_getD htBo htTh]
  simp only [costMatrix]
  rw [triple_entry lB lK lG hr rowB rowK rowG ht, eB, eK, eG]
  ring

/-- Witness for C6 at entry (0, 0) of the concrete one-image batch. -/
theorem final_cost_is_weighted_sum_w :
    ValidBatch 1 1 out1 [tgt1] ∧
    ((costMatrix P0 ⟨1, 1, 1⟩ out1 [tgt1]).getD 0 []).getD 0 0
      = (1 : ℚ)
          * (pos_cost_class P0 (P0.sigmoid ((out1.pred_logits.flatten.getD 0 []).getD
                (([tgt1].map Target.labels).flatten.getD 0 0) 0))
             - neg_cost_class P0 (P0.sigmoid ((out1.pred_logits.flatten.getD 0 []).getD
                (([tgt1].map Target.labels).flatten.getD 0 0) 0)))
        + 1 * matched_l1_loss (out1.pred_polys.flatten.getD 0 [])
              (([tgt1].map Target.polys).flatten.getD 0 [])
        + 1 * cal_giou P0 (out1.pred_boxes.flatten.getD 0 [])
              (([tgt1].map Target.boxes).flatten.getD 0 []
                ++ ([tgt1].map Target.theta).flatten.getD 0 []) :=
  ⟨by decide, final_cost_is_weighted_sum P0 ⟨1, 1, 1⟩
    (by decide : ValidBatch 1 1 out1 [tgt1]) (by decide) (by decide)⟩
